import Mathlib

/-!
# CODA: the CRT-composed encrypted vector `ppe::EncVec`

A shallow embedding of `src/core/src/core/PPE/EncVec.cpp`.

* `NTL::ZZ` is `Int`; the plaintext vector type `Vector` is `List Int`.
* The single-modulus channel `core::EncVec`, the key types and
  `algebra::apply_crt` are declared outside the translated file; they are
  modelled from the specification (each such definition says so).
* The `#pragma omp parallel for` loops touch one channel per iteration and
  share no state, so they are embedded as sequential loops.
* A `std::out_of_range` thrown by `std::vector::at` is `none`.
-/

set_option autoImplicit false

namespace ppe

/-- The plaintext vector type of the engine (`Vector`, a vector of `NTL::ZZ`). -/
abbrev Vector := List Int

/-- Modelled from the spec: one key part (`pk.get(i)` / `sk.get(i)`), of which the
engine reads only the plaintext modulus of its context,
`getContext().alMod.getPPowR()`. The key classes are not part of the translated file. -/
structure KeyPart where
  ppowr : Nat
deriving DecidableEq, Repr

/-- Modelled from the spec: the public key, an ordered collection of key parts
indexable by position with a count (`PubKey`, declared in `core/PPE/PubKey.hpp`). -/
structure PubKey where
  parts : List KeyPart
deriving DecidableEq, Repr

/-- Modelled from the spec: the secret key, with the analogous indexed access
(`SecKey`, declared in `core/PPE/SecKey.hpp`). -/
structure SecKey where
  parts : List KeyPart
deriving DecidableEq, Repr

/-- The count `pk.partsNum()`. -/
def PubKey.partsNum (pk : PubKey) : Nat := pk.parts.length

/-- The count `sk.partsNum()`. -/
def SecKey.partsNum (sk : SecKey) : Nat := sk.parts.length

/-- The indexed access `sk.get(i)`. -/
def SecKey.get (sk : SecKey) (i : Nat) : KeyPart := sk.parts.getD i ⟨0⟩

namespace core

/-- Modelled from the spec: the Residue Channel `core::EncVec`, a single-modulus
encrypted vector supplied by the underlying scheme (its class is not part of the
translated file). The ciphertext is represented by what it decrypts to: the
residues of the slots modulo the channel's plaintext modulus, together with a flag
telling whether the ciphertext is in the minimal (linear) representation. -/
structure EncVec where
  modulus : Nat
  slots : List Int
  linear : Bool
deriving DecidableEq, Repr

/-- Modelled from the spec: `core::EncVec(pk.get(i))`, an empty channel bound to
one key part; no ciphertext exists yet. -/
def EncVec.new (kp : KeyPart) : EncVec := ⟨kp.ppowr, [], true⟩

/-- Modelled from the spec: channel `pack`, which encrypts the vector under the
channel's own modulus (each slot reduced modulo that modulus). -/
def EncVec.pack (c : EncVec) (vec : Vector) : EncVec :=
  { c with slots := vec.map (fun x => x % (c.modulus : Int)), linear := true }

/-- Modelled from the spec: channel `unpack(result, skPart, negate)`, which decrypts
to the residue, negated modulo the channel's modulus when `negate` is set. The
returned pair is the success flag and the new content of `result`. -/
def EncVec.unpack (c : EncVec) (_skPart : KeyPart) (negate : Bool) : Bool × Vector :=
  (true, if negate then c.slots.map (fun x => (-x) % (c.modulus : Int)) else c.slots)

/-- Modelled from the spec: channel `add(other)`, slot-wise homomorphic addition. -/
def EncVec.add (c oth : EncVec) : EncVec :=
  { c with slots := List.zipWith (fun x y => (x + y) % (c.modulus : Int)) c.slots oth.slots }

/-- Modelled from the spec: channel `add(constant)`; the constant is encoded under
the channel's modulus and added slot-wise. -/
def EncVec.add_vec (c : EncVec) (k : Vector) : EncVec :=
  { c with slots := List.zipWith (fun x y => (x + y) % (c.modulus : Int)) c.slots k }

/-- Modelled from the spec: channel `mul(constant)`, slot-wise plaintext multiplication. -/
def EncVec.mul_vec (c : EncVec) (k : Vector) : EncVec :=
  { c with slots := List.zipWith (fun x y => (x * y) % (c.modulus : Int)) c.slots k }

/-- Modelled from the spec: channel `lowLevelMul(other)`, ciphertext-ciphertext
multiplication without relinearization; the result leaves the linear form. -/
def EncVec.lowLevelMul (c oth : EncVec) : EncVec :=
  { c with slots := List.zipWith (fun x y => (x * y) % (c.modulus : Int)) c.slots oth.slots,
           linear := false }

/-- Modelled from the spec: channel `reLinearize()`, which restores the minimal
(linear) representation and leaves the plaintext unchanged. -/
def EncVec.reLinearize (c : EncVec) : EncVec := { c with linear := true }

/-- Modelled from the spec: channel `replicate(i, width)`, a new channel whose
`width` slots all carry the value of slot `i`. -/
def EncVec.replicate (c : EncVec) (i width : Nat) : EncVec :=
  { c with slots := List.replicate width (c.slots.getD i 0) }

/-- Modelled from the spec: channel `length()`, the logical length. -/
def EncVec.length (c : EncVec) : Nat := c.slots.length

end core

namespace algebra

/-- Modelled from the spec: `algebra::apply_crt(alphas, primes)` of
`core/algebra/util.hpp`, which is not part of the translated file. Standard CRT
reconstruction: the residues are paired with the leading moduli, and the value is
the least non-negative integer below the product of those moduli that is congruent
to every residue modulo its modulus (0 when there is none). -/
def apply_crt (alphas : List Int) (primes : List Nat) : Int :=
  let sys := List.zip alphas primes
  let M := (sys.map Prod.snd).prod
  match (List.range M).find?
      (fun (x : Nat) =>
        sys.all (fun ap => decide ((x : Int) % (ap.2 : Int) = ap.1 % (ap.2 : Int)))) with
  | some x => (x : Int)
  | none => 0

end algebra

/-- The state of `EncVec::Imp`: the key handle `pk_`, the moduli `primes_` and the
channels `crtParts_`. The cached slot structures `ea_` are pointers into the key's
contexts that no translated method reads; they are left out. -/
structure Imp where
  pk_ : PubKey
  primes_ : List Nat
  crtParts_ : List core.EncVec
deriving DecidableEq, Repr

namespace Imp

/-- Embedding of `Imp::getPrimes`: one modulus per key part, in order. -/
def getPrimes (pk : PubKey) : List Nat := pk.parts.map (fun kp => kp.ppowr)

/-- Embedding of `Imp::Imp(const PubKey &pk)`: stores the key, reads the moduli and pushes one
empty channel per key part. -/
def new (pk : PubKey) : Imp :=
  { pk_ := pk, primes_ := getPrimes pk, crtParts_ := pk.parts.map core.EncVec.new }

/-- Embedding of `Imp::pack`: every stored channel (accessed through `crtParts_.at(i)`) packs
the vector; returns `true`. -/
def pack (e : Imp) (vec : Vector) : Bool × Imp :=
  (true, { e with crtParts_ := e.crtParts_.map (fun c => c.pack vec) })

/-- Embedding of `Imp::apply_crt`: the count check, then position by position the length check
of every residue inside the position loop and the reconstruction of that position.
The pair is the returned flag and the content of the caller's `result`. -/
def apply_crt (e : Imp) (result : Vector) (plains : List Vector) : Bool × Vector :=
  if plains.isEmpty || decide (plains.length > e.primes_.length) then (false, result)
  else
    let len := (plains.headD []).length
    match (List.range len).mapM (fun pos =>
        (plains.mapM (fun plain =>
            if plain.length ≠ len then none else some (plain.getD pos 0))).map
          (fun alphas => algebra.apply_crt alphas e.primes_)) with
    | none => (false, result)
    | some tmp => (true, tmp)

/-- Embedding of `Imp::unpack`: fails on a vector without channels; otherwise allocates one empty
residue per channel, lets channel `i` decrypt into residue `i` for every
`i < sk.partsNum()`, always with the literal `false` as the channel's negate
argument, and hands the residues to `apply_crt`. The argument `negate` is not used
by the body. `none` is the `std::out_of_range` of `crtParts_.at(i)`. -/
def unpack (e : Imp) (result : Vector) (sk : SecKey) (_negate : Bool) :
    Option (Bool × Vector) :=
  if e.crtParts_.isEmpty then some (false, result)
  else
    let alphas0 : List Vector := List.replicate e.crtParts_.length []
    let alphas := (List.range sk.partsNum).foldlM (fun (al : List Vector) i =>
      match e.crtParts_.get? i with
      | none => none
      | some c => some (al.set i (c.unpack (sk.get i) false).2)) alphas0
    alphas.map (fun al => apply_crt e result al)

/-- Embedding of `Imp::add(const std::shared_ptr<Imp> &)`: channel `i` of this vector adds channel
`i` of the other one, both accessed with `at(i)`; returns `true`. -/
def add (e oth : Imp) : Option (Bool × Imp) :=
  ((List.range e.crtParts_.length).mapM (fun i =>
      match e.crtParts_.get? i, oth.crtParts_.get? i with
      | some c, some o => some (c.add o)
      | _, _ => none)).map
    (fun cs => (true, { e with crtParts_ := cs }))

/-- Embedding of `Imp::add(const Vector &)`: the loop `for (auto crtPart : crtParts_)` binds each
element by value, so the channel-level `add` runs on a copy that is dropped at the
end of the iteration; the stored channels are not written. Returns `true`. -/
def add_vec (e : Imp) (c : Vector) : Bool × Imp :=
  let _copies := e.crtParts_.map (fun crtPart => crtPart.add_vec c)
  (true, e)

/-- Embedding of `Imp::mul(const Vector &)`: the same by-value loop as `add(const Vector &)`. -/
def mul_vec (e : Imp) (c : Vector) : Bool × Imp :=
  let _copies := e.crtParts_.map (fun crtPart => crtPart.mul_vec c)
  (true, e)

/-- Embedding of `Imp::lowLevelMul`: channel `i` of this vector is multiplied by channel `i` of
the other one, both accessed with `at(i)`; returns `true`. -/
def lowLevelMul (e oth : Imp) : Option (Bool × Imp) :=
  ((List.range e.crtParts_.length).mapM (fun i =>
      match e.crtParts_.get? i, oth.crtParts_.get? i with
      | some c, some o => some (c.lowLevelMul o)
      | _, _ => none)).map
    (fun cs => (true, { e with crtParts_ := cs }))

/-- Embedding of `Imp::reLinearize`: the loop `for (auto crtPart : crtParts_)` binds each element
by value, so the channel-level `reLinearize` runs on a copy; the stored channels are
not written. Returns `true`. -/
def reLinearize (e : Imp) : Bool × Imp :=
  let _copies := e.crtParts_.map (fun crtPart => crtPart.reLinearize)
  (true, e)

/-- Embedding of `Imp::mul(const std::shared_ptr<Imp> &)`:
`if (!lowLevelMul(oth)) return false; return reLinearize();`. -/
def mul (e oth : Imp) : Option (Bool × Imp) :=
  match lowLevelMul e oth with
  | none => none
  | some (ok, e1) => if !ok then some (false, e1) else some (reLinearize e1)

/-- Embedding of `Imp::length`: 0 without channels, else the length of the first channel. -/
def length (e : Imp) : Nat :=
  if e.crtParts_.isEmpty then 0 else (e.crtParts_.headD (core.EncVec.new ⟨0⟩)).length

end Imp

/-- The public class `EncVec`: a handle on its own `Imp` (the copy constructor and
the assignment operator both allocate a fresh copy of the `Imp`). -/
structure EncVec where
  imp_ : Imp
deriving DecidableEq, Repr

namespace EncVec

/-- Embedding of `EncVec::EncVec(const PubKey &pk)`. -/
def new (pk : PubKey) : EncVec := ⟨Imp.new pk⟩

/-- Embedding of `EncVec::EncVec(const EncVec &)` and `operator=`: a deep copy of the state. -/
def copy (v : EncVec) : EncVec := ⟨v.imp_⟩

/-- Embedding of `EncVec::pack`: forwards to the implementation and returns `*this`. -/
def pack (v : EncVec) (vec : Vector) : EncVec := ⟨(v.imp_.pack vec).2⟩

/-- Embedding of `EncVec::unpack`: forwards all three arguments to the implementation. -/
def unpack (v : EncVec) (result : Vector) (sk : SecKey) (negate : Bool) :
    Option (Bool × Vector) :=
  v.imp_.unpack result sk negate

/-- Embedding of `EncVec::add(const EncVec &)`: forwards, drops the flag, returns `*this`. -/
def add (v oth : EncVec) : Option EncVec :=
  (v.imp_.add oth.imp_).map (fun r => ⟨r.2⟩)

/-- Embedding of `EncVec::add(const Vector &)`. -/
def add_vec (v : EncVec) (c : Vector) : EncVec := ⟨(v.imp_.add_vec c).2⟩

/-- Embedding of `EncVec::mul(const Vector &)`. -/
def mul_vec (v : EncVec) (c : Vector) : EncVec := ⟨(v.imp_.mul_vec c).2⟩

/-- Embedding of `EncVec::lowLevelMul`. -/
def lowLevelMul (v oth : EncVec) : Option EncVec :=
  (v.imp_.lowLevelMul oth.imp_).map (fun r => ⟨r.2⟩)

/-- Embedding of `EncVec::reLinearize`. -/
def reLinearize (v : EncVec) : EncVec := ⟨(v.imp_.reLinearize).2⟩

/-- Embedding of `EncVec::mul(const EncVec &)`. -/
def mul (v oth : EncVec) : Option EncVec :=
  (v.imp_.mul oth.imp_).map (fun r => ⟨r.2⟩)

/-- The specification of `mul(other)`, written from its wording and not from the
code: `lowLevelMul(other)` followed by `reLinearize()`. -/
def mul_spec (v oth : EncVec) : Option EncVec :=
  (v.lowLevelMul oth).map (fun v1 => v1.reLinearize)

/-- Embedding of `EncVec::length`. -/
def length (v : EncVec) : Nat := v.imp_.length

end EncVec

namespace Imp

/-- Embedding of `Imp::replicate(long i, long width)`: `EncVec tmp(pk_)` runs the constructor,
which already pushes one empty channel per key part; the loop then appends
(`emplace_back`) the replicated copy of every channel of this vector. -/
def replicate (e : Imp) (i width : Nat) : EncVec :=
  let tmp := EncVec.new e.pk_
  { tmp with imp_ := { tmp.imp_ with
      crtParts_ := tmp.imp_.crtParts_ ++ e.crtParts_.map (fun c => c.replicate i width) } }

/-- Embedding of `Imp::replicateAll(long width)`: `length()` vectors, the one at index `i` being
`replicate(i, width)`. -/
def replicateAll (e : Imp) (width : Nat) : List EncVec :=
  (List.range e.length).map (fun i => replicate e i width)

end Imp

/-- Embedding of `EncVec::replicate(long i, long width)`. -/
def EncVec.replicate (v : EncVec) (i width : Nat) : EncVec := v.imp_.replicate i width

/-- Embedding of `EncVec::replicate(long i)`: the width is the current `length()`. -/
def EncVec.replicate_full (v : EncVec) (i : Nat) : EncVec := v.imp_.replicate i v.imp_.length

/-- Embedding of `EncVec::replicateAll(long width)`. -/
def EncVec.replicateAll (v : EncVec) (width : Nat) : List EncVec := v.imp_.replicateAll width

/-- Embedding of `EncVec::replicateAll()`: the width is the current `length()`. -/
def EncVec.replicateAll_full (v : EncVec) : List EncVec := v.imp_.replicateAll v.imp_.length

/-- A two-part key with the moduli 2 and 3, used for concrete evaluations. -/
def pk23 : PubKey := ⟨[⟨2⟩, ⟨3⟩]⟩

/-- The secret key paired with `pk23`. -/
def sk23 : SecKey := ⟨[⟨2⟩, ⟨3⟩]⟩

end ppe

open ppe

/-! ## Auxiliary facts about the list combinators used by the embedding -/

theorem mapM_option_eq_some {α β : Type} (f : α → Option β) (g : α → β) (l : List α)
    (h : ∀ x ∈ l, f x = some (g x)) : l.mapM f = some (l.map g) := by
  induction l with
  | nil => rfl
  | cons x xs ih =>
    have hx : f x = some (g x) := h x (List.mem_cons_self _ _)
    have hxs : xs.mapM f = some (xs.map g) :=
      ih (fun y hy => h y (List.mem_cons_of_mem _ hy))
    rw [List.mapM_cons, hx, hxs]
    rfl

theorem mapM_option_eq_none {α β : Type} (f : α → Option β) (l : List α) (x : α)
    (hx : x ∈ l) (h : f x = none) : l.mapM f = none := by
  induction l with
  | nil => cases hx
  | cons y ys ih =>
    rcases List.mem_cons.mp hx with rfl | hmem
    · rw [List.mapM_cons, h]
      rfl
    · have hys := ih hmem
      rw [List.mapM_cons, hys]
      cases f y <;> rfl

theorem map_getD_range (l : List Int) :
    (List.range l.length).map (fun pos => l.getD pos 0) = l := by
  apply List.ext_getElem
  · simp
  · intro n h1 h2
    simp [List.getD_eq_getElem?_getD, List.getElem?_eq_getElem h2]

/-! ## Chinese remaindering for the reconstruction model -/

theorem algebra_apply_crt_eq {α : Type} (ks : List α) (a : α → Int) (p : α → Nat) (t : Int)
    (hco : (ks.map p).Pairwise Nat.Coprime) (hM : 0 < (ks.map p).prod)
    (h : ∀ k ∈ ks, a k % (p k : Int) = t % (p k : Int)) :
    algebra.apply_crt (ks.map a) (ks.map p) = t % (((ks.map p).prod : Nat) : Int) := by
  have hco2 : ks.Pairwise (fun x y => Nat.Coprime (p x) (p y)) := by
    rw [List.pairwise_map] at hco
    exact hco
  have hMz : (((ks.map p).prod : Nat) : Int) ≠ 0 := by
    have := hM.ne.symm
    exact_mod_cast this
  have hdvd : ∀ k ∈ ks, ((p k : Nat) : Int) ∣ (((ks.map p).prod : Nat) : Int) := by
    intro k hk
    exact Int.natCast_dvd_natCast.mpr (List.dvd_prod (List.mem_map_of_mem p hk))
  have hzip : List.zip (ks.map a) (ks.map p) = ks.map (fun k => (a k, p k)) :=
    List.zip_map' a p ks
  have hsnd : (ks.map (fun k => (a k, p k))).map Prod.snd = ks.map p := by
    simp [List.map_map, Function.comp_def]
  -- the canonical representative of `t`
  obtain ⟨s, hs⟩ : ∃ s : Nat, (s : Int) = t % (((ks.map p).prod : Nat) : Int) :=
    ⟨(t % (((ks.map p).prod : Nat) : Int)).toNat,
      Int.toNat_of_nonneg (Int.emod_nonneg _ hMz)⟩
  have hslt : s < (ks.map p).prod := by
    have h1 : t % (((ks.map p).prod : Nat) : Int) < (((ks.map p).prod : Nat) : Int) :=
      Int.emod_lt_of_pos _ (by exact_mod_cast hM)
    rw [← hs] at h1
    exact_mod_cast h1
  have hsres : ∀ k ∈ ks, (s : Int) % (p k : Int) = a k % (p k : Int) := by
    intro k hk
    rw [hs, Int.emod_emod_of_dvd t (hdvd k hk), h k hk]
  unfold algebra.apply_crt
  simp only [hzip, hsnd]
  cases hfind : (List.range (ks.map p).prod).find?
      (fun (x : Nat) => (ks.map (fun k => (a k, p k))).all
        (fun ap => decide ((x : Int) % (ap.2 : Int) = ap.1 % (ap.2 : Int)))) with
  | none =>
    exfalso
    rw [List.find?_eq_none] at hfind
    apply hfind s (List.mem_range.mpr hslt)
    simp only [List.all_eq_true, List.mem_map, decide_eq_true_eq]
    rintro ap ⟨k, hk, rfl⟩
    exact hsres k hk
  | some y =>
    have hy := List.find?_some hfind
    have hymem := List.mem_of_find?_eq_some hfind
    have hylt : y < (ks.map p).prod := List.mem_range.mp hymem
    simp only [List.all_eq_true, List.mem_map, decide_eq_true_eq] at hy
    have hmod : ∀ k ∈ ks, y ≡ s [MOD p k] := by
      intro k hk
      have h1 : (y : Int) % (p k : Int) = a k % (p k : Int) := hy (a k, p k) ⟨k, hk, rfl⟩
      have h2 : (y : Int) % (p k : Int) = (s : Int) % (p k : Int) := by
        rw [h1, hsres k hk]
      exact Int.natCast_modEq_iff.mp h2
    have hprod : y ≡ s [MOD (ks.map p).prod] := (Nat.modEq_list_prod_iff' hco2).mpr hmod
    have hys : y = s := by
      have := hprod
      unfold Nat.ModEq at this
      rwa [Nat.mod_eq_of_lt hylt, Nat.mod_eq_of_lt hslt] at this
    show (y : Int) = t % (((ks.map p).prod : Nat) : Int)
    rw [hys, hs]

/-! ## The reconstruction loop and the decryption loop in closed form -/

theorem Imp_apply_crt_uniform (e : Imp) (result : Vector) (plains : List Vector) (L : Nat)
    (hne : plains ≠ []) (hcnt : plains.length ≤ e.primes_.length)
    (hlen : ∀ pl ∈ plains, pl.length = L) :
    e.apply_crt result plains =
      (true, (List.range L).map (fun pos =>
        algebra.apply_crt (plains.map (fun pl => pl.getD pos 0)) e.primes_)) := by
  obtain ⟨p0, ps, rfl⟩ := List.exists_cons_of_ne_nil hne
  have hL : ((p0 :: ps).headD []).length = L := hlen p0 (List.mem_cons_self _ _)
  have hguard : ((p0 :: ps).isEmpty || decide ((p0 :: ps).length > e.primes_.length)) = false := by
    simp only [List.isEmpty_cons, Bool.false_or, decide_eq_false_iff_not, not_lt]
    exact hcnt
  unfold Imp.apply_crt
  rw [hguard, hL]
  have hinner : ∀ pos : Nat,
      (p0 :: ps).mapM (fun plain => if plain.length ≠ L then none else some (plain.getD pos 0))
        = some ((p0 :: ps).map (fun pl => pl.getD pos 0)) := by
    intro pos
    apply mapM_option_eq_some
    intro pl hpl
    simp [hlen pl hpl]
  have houter := mapM_option_eq_some
    (fun pos => ((p0 :: ps).mapM
        (fun plain => if plain.length ≠ L then none else some (plain.getD pos 0))).map
          (fun alphas => algebra.apply_crt alphas e.primes_))
    (fun pos => algebra.apply_crt ((p0 :: ps).map (fun pl => pl.getD pos 0)) e.primes_)
    (List.range L) (by intro pos _; simp only [hinner pos, Option.map_some'])
  simp only [Bool.false_eq_true, if_false]
  rw [houter]

theorem unpack_loop (parts : List core.EncVec) (sk : SecKey) (k : Nat)
    (hk : k ≤ parts.length) :
    (List.range k).foldlM (fun (al : List Vector) i =>
        match parts.get? i with
        | none => none
        | some c => some (al.set i (c.unpack (sk.get i) false).2))
      (List.replicate parts.length [])
    = some ((List.range parts.length).map
        (fun j => if j < k then (parts.getD j (core.EncVec.new ⟨0⟩)).slots else [])) := by
  induction k with
  | zero =>
    simp only [List.range_zero, List.foldlM_nil, Nat.not_lt_zero, if_false]
    congr 1
    apply List.ext_getElem <;> simp
  | succ k ih =>
    have hk1 : k < parts.length := hk
    rw [List.range_succ, List.foldlM_append, ih (Nat.le_of_lt hk1)]
    have hget : parts.get? k = some (parts.getD k (core.EncVec.new ⟨0⟩)) := by
      simp [List.getD_eq_getElem?_getD, List.getElem?_eq_getElem hk1]
    simp only [Option.some_bind, Option.bind_eq_bind, List.foldlM_cons, List.foldlM_nil, hget]
    show some _ = some _
    congr 1
    apply List.ext_getElem
    · simp
    · intro j h1 h2
      simp only [List.getElem_set, List.getElem_map, List.getElem_range, core.EncVec.unpack]
      by_cases hjk : k = j
      · subst hjk
        simp
      · simp only [hjk, if_false]
        by_cases hlt : j < k
        · simp [hlt, Nat.lt_succ_of_lt hlt]
        · have : ¬ j < k + 1 := by omega
          simp [hlt, this]

theorem Imp_unpack_uniform (e : Imp) (result : Vector) (sk : SecKey) (negate : Bool) (L : Nat)
    (hne : e.crtParts_ ≠ []) (hsk : sk.partsNum = e.crtParts_.length)
    (hcnt : e.crtParts_.length ≤ e.primes_.length)
    (hlen : ∀ c ∈ e.crtParts_, c.slots.length = L) :
    e.unpack result sk negate =
      some (true, (List.range L).map (fun pos =>
        algebra.apply_crt (e.crtParts_.map (fun c => c.slots.getD pos 0)) e.primes_)) := by
  have hemp : e.crtParts_.isEmpty = false := by
    cases h : e.crtParts_ with
    | nil => exact absurd h hne
    | cons _ _ => rfl
  have hal : (List.range e.crtParts_.length).map
      (fun j => if j < e.crtParts_.length
        then (e.crtParts_.getD j (core.EncVec.new ⟨0⟩)).slots else [])
      = e.crtParts_.map (fun c => c.slots) := by
    apply List.ext_getElem
    · simp
    · intro j h1 h2
      have hj : j < e.crtParts_.length := by simpa using h2
      simp [hj, List.getD_eq_getElem?_getD, List.getElem?_eq_getElem hj]
  unfold Imp.unpack
  rw [hemp, hsk]
  simp only [Bool.false_eq_true, if_false]
  rw [unpack_loop e.crtParts_ sk e.crtParts_.length (Nat.le_refl _), hal]
  simp only [Option.map_some']
  rw [Imp_apply_crt_uniform e result (e.crtParts_.map (fun c => c.slots)) L
    (by simpa using hne) (by simpa using hcnt)
    (by intro pl hpl; obtain ⟨c, hc, rfl⟩ := List.mem_map.mp hpl; exact hlen c hc)]
  simp [List.map_map, Function.comp_def]

theorem channel_loop (f : core.EncVec → core.EncVec → core.EncVec)
    (xs ys : List core.EncVec) (h : xs.length ≤ ys.length) :
    (List.range xs.length).mapM (fun i =>
        match xs.get? i, ys.get? i with
        | some c, some o => some (f c o)
        | _, _ => none)
      = some (List.zipWith f xs ys) := by
  have hstep := mapM_option_eq_some
    (fun i => match xs.get? i, ys.get? i with
        | some c, some o => some (f c o)
        | _, _ => none)
    (fun i => f (xs.getD i (core.EncVec.new ⟨0⟩)) (ys.getD i (core.EncVec.new ⟨0⟩)))
    (List.range xs.length)
    (by
      intro i hi
      have hix : i < xs.length := List.mem_range.mp hi
      have hiy : i < ys.length := Nat.lt_of_lt_of_le hix h
      simp [List.getD_eq_getElem?_getD, List.getElem?_eq_getElem hix,
        List.getElem?_eq_getElem hiy])
  rw [hstep]
  congr 1
  apply List.ext_getElem
  · simp [Nat.min_eq_left h]
  · intro j h1 h2
    have hjx : j < xs.length := by simpa using h1
    have hjy : j < ys.length := Nat.lt_of_lt_of_le hjx h
    simp [List.getD_eq_getElem?_getD, List.getElem?_eq_getElem hjx,
      List.getElem?_eq_getElem hjy]

theorem Imp_add_eq (e oth : Imp) (h : e.crtParts_.length ≤ oth.crtParts_.length) :
    e.add oth = some (true,
      { e with crtParts_ := List.zipWith core.EncVec.add e.crtParts_ oth.crtParts_ }) := by
  unfold Imp.add
  rw [channel_loop core.EncVec.add e.crtParts_ oth.crtParts_ h]
  rfl

theorem Imp_lowLevelMul_eq (e oth : Imp) (h : e.crtParts_.length ≤ oth.crtParts_.length) :
    e.lowLevelMul oth = some (true,
      { e with crtParts_ := List.zipWith core.EncVec.lowLevelMul e.crtParts_ oth.crtParts_ }) := by
  unfold Imp.lowLevelMul
  rw [channel_loop core.EncVec.lowLevelMul e.crtParts_ oth.crtParts_ h]
  rfl

/-! ## Round trip -/

/-- C1. Round trip: for a key pair with at least one part and pairwise coprime
moduli, and a plaintext vector whose entries lie in `[0, M)` for the product `M` of
the moduli, `pack` on a freshly constructed vector followed by `unpack` with
`negate = false` returns `true` and stores exactly the packed vector in `result`.
The statement holds for every length of the vector, in particular within the slot
count. -/
theorem C1_pack_unpack_roundtrip (pk : PubKey) (sk : SecKey) (v result : Vector)
    (hN : 1 ≤ pk.partsNum) (hsk : sk.parts = pk.parts)
    (hco : (Imp.getPrimes pk).Pairwise Nat.Coprime)
    (hv : ∀ x ∈ v, 0 ≤ x ∧ x < (((Imp.getPrimes pk).prod : Nat) : Int)) :
    ((EncVec.new pk).pack v).unpack result sk false = some (true, v) := by
  have hparts : pk.parts ≠ [] := by
    intro h
    simp [PubKey.partsNum, h] at hN
  have hun := Imp_unpack_uniform ((Imp.new pk).pack v).2 result sk false v.length
    (by simpa [Imp.pack, Imp.new] using hparts)
    (by simp [Imp.pack, Imp.new, SecKey.partsNum, hsk])
    (by simp [Imp.pack, Imp.new, Imp.getPrimes])
    (by
      intro c hc
      simp only [Imp.pack, Imp.new, List.map_map, List.mem_map, Function.comp_apply] at hc
      obtain ⟨kp, _, rfl⟩ := hc
      simp [core.EncVec.pack])
  show (((Imp.new pk).pack v).2).unpack result sk false = some (true, v)
  rw [hun]
  congr 2
  conv_rhs => rw [← map_getD_range v]
  apply List.map_congr_left
  intro pos hpos
  have hlt : pos < v.length := List.mem_range.mp hpos
  have hmem : v[pos] ∈ v := List.getElem_mem hlt
  have hget : v.getD pos 0 = v[pos] := by
    simp [List.getD_eq_getElem?_getD, List.getElem?_eq_getElem hlt]
  have hM : 0 < (Imp.getPrimes pk).prod := by
    have := hv _ hmem
    have h2 : (0 : Int) < (((Imp.getPrimes pk).prod : Nat) : Int) := lt_of_le_of_lt this.1 this.2
    exact_mod_cast h2
  have hcrt := algebra_apply_crt_eq pk.parts
    (fun kp => (v.map (fun x => x % (kp.ppowr : Int))).getD pos 0) (fun kp => kp.ppowr) v[pos]
    hco hM
    (by
      intro kp _
      simp [List.getD_eq_getElem?_getD, List.getElem?_eq_getElem hlt])
  have hshape : (((Imp.new pk).pack v).2.crtParts_).map (fun c => c.slots.getD pos 0)
      = pk.parts.map (fun kp => (v.map (fun x => x % (kp.ppowr : Int))).getD pos 0) := by
    simp [Imp.pack, Imp.new, core.EncVec.pack, core.EncVec.new, List.map_map, Function.comp_def]
  rw [hshape, hget]
  show algebra.apply_crt _ (pk.parts.map (fun kp => kp.ppowr)) = v[pos]
  rw [hcrt]
  exact Int.emod_eq_of_lt (hv _ hmem).1 (hv _ hmem).2

/-- Witness for C1 on the key with moduli 2 and 3 and the vector `[1, 4, 5]`. -/
theorem C1_pack_unpack_roundtrip_witness :
    ((EncVec.new pk23).pack [1, 4, 5]).unpack [] sk23 false = some (true, [1, 4, 5]) :=
  C1_pack_unpack_roundtrip pk23 sk23 [1, 4, 5] [] (by decide) (by decide) (by decide)
    (by decide)

/-! ## Additive homomorphism -/

theorem zipWith_map_map {α β γ δ : Type} (f : β → γ → δ) (g : α → β) (h : α → γ)
    (l : List α) :
    List.zipWith f (l.map g) (l.map h) = l.map (fun x => f (g x) (h x)) := by
  induction l with
  | nil => rfl
  | cons x xs ih => simp [ih]

/-- C7. Additive homomorphism: for a key with at least one part whose moduli are
positive and pairwise coprime, and two plaintext vectors of equal length packed into
`a` and `b` under that key, `a.add(b)` succeeds; afterwards channel `i` of `a` is the
channel-level sum of the previous channel `i` of `a` and channel `i` of `b` for every
`i < N`, and unpacking `a` returns `true` with `v1 + v2` elementwise modulo the
product of the moduli. The operand `b` is only read: the embedded `add` takes it as a
value and produces the new state of `a` alone. -/
theorem C7_add_homomorphism (pk : PubKey) (sk : SecKey) (v1 v2 result : Vector)
    (hN : 1 ≤ pk.partsNum) (hsk : sk.parts = pk.parts)
    (hpos : ∀ p ∈ Imp.getPrimes pk, 0 < p)
    (hco : (Imp.getPrimes pk).Pairwise Nat.Coprime)
    (hlen : v1.length = v2.length) :
    ∃ a1 : EncVec, ((EncVec.new pk).pack v1).add ((EncVec.new pk).pack v2) = some a1 ∧
      (∀ i, i < pk.partsNum → ∃ c o,
        ((EncVec.new pk).pack v1).imp_.crtParts_.get? i = some c ∧
        ((EncVec.new pk).pack v2).imp_.crtParts_.get? i = some o ∧
        a1.imp_.crtParts_.get? i = some (c.add o)) ∧
      a1.unpack result sk false = some (true,
        List.zipWith (fun x y => (x + y) % (((Imp.getPrimes pk).prod : Nat) : Int)) v1 v2) := by
  have hparts : pk.parts ≠ [] := by
    intro h
    simp [PubKey.partsNum, h] at hN
  have hM : 0 < (Imp.getPrimes pk).prod := List.prod_pos hpos
  have hadd := Imp_add_eq ((Imp.new pk).pack v1).2 ((Imp.new pk).pack v2).2
    (by simp [Imp.pack, Imp.new])
  have hch : List.zipWith core.EncVec.add ((Imp.new pk).pack v1).2.crtParts_
        ((Imp.new pk).pack v2).2.crtParts_
      = pk.parts.map (fun kp =>
          ((core.EncVec.new kp).pack v1).add ((core.EncVec.new kp).pack v2)) := by
    simp only [Imp.pack, Imp.new, List.map_map]
    exact zipWith_map_map core.EncVec.add _ _ pk.parts
  refine ⟨⟨{ ((Imp.new pk).pack v1).2 with
      crtParts_ := List.zipWith core.EncVec.add ((Imp.new pk).pack v1).2.crtParts_
        ((Imp.new pk).pack v2).2.crtParts_ }⟩, ?_, ?_, ?_⟩
  · show Option.map _ ((((Imp.new pk).pack v1).2).add (((Imp.new pk).pack v2).2)) = _
    rw [hadd]
    rfl
  · intro i hi
    have hi2 : i < pk.parts.length := hi
    refine ⟨(core.EncVec.new pk.parts[i]).pack v1, (core.EncVec.new pk.parts[i]).pack v2,
      ?_, ?_, ?_⟩
    · simp [EncVec.pack, EncVec.new, Imp.pack, Imp.new, List.getElem?_eq_getElem hi2]
    · simp [EncVec.pack, EncVec.new, Imp.pack, Imp.new, List.getElem?_eq_getElem hi2]
    · show (List.zipWith core.EncVec.add ((Imp.new pk).pack v1).2.crtParts_
        ((Imp.new pk).pack v2).2.crtParts_).get? i = _
      rw [hch]
      simp [List.getElem?_eq_getElem hi2]
  · show Imp.unpack { ((Imp.new pk).pack v1).2 with
      crtParts_ := List.zipWith core.EncVec.add ((Imp.new pk).pack v1).2.crtParts_
        ((Imp.new pk).pack v2).2.crtParts_ } result sk false = _
    rw [hch]
    have hun := Imp_unpack_uniform
      { ((Imp.new pk).pack v1).2 with crtParts_ := pk.parts.map (fun kp =>
          ((core.EncVec.new kp).pack v1).add ((core.EncVec.new kp).pack v2)) }
      result sk false v1.length
      (by simpa using hparts)
      (by simp [SecKey.partsNum, hsk])
      (by simp [Imp.pack, Imp.new, Imp.getPrimes])
      (by
        intro c hc
        simp only [List.mem_map] at hc
        obtain ⟨kp, _, rfl⟩ := hc
        simp [core.EncVec.pack, core.EncVec.add, hlen])
    rw [hun]
    congr 2
    have hwlen : (List.zipWith
        (fun x y => (x + y) % (((Imp.getPrimes pk).prod : Nat) : Int)) v1 v2).length
        = v1.length := by simp [hlen]
    conv_rhs => rw [← map_getD_range (List.zipWith
        (fun x y => (x + y) % (((Imp.getPrimes pk).prod : Nat) : Int)) v1 v2)]
    rw [hwlen]
    apply List.map_congr_left
    intro pos hpos1
    have hlt1 : pos < v1.length := List.mem_range.mp hpos1
    have hlt2 : pos < v2.length := hlen ▸ hlt1
    have hcrt := algebra_apply_crt_eq pk.parts
      (fun kp => (((core.EncVec.new kp).pack v1).add
        ((core.EncVec.new kp).pack v2)).slots.getD pos 0)
      (fun kp => kp.ppowr) (v1[pos] + v2[pos]) hco hM
      (by
        intro kp _
        simp [core.EncVec.pack, core.EncVec.add, core.EncVec.new,
          List.getD_eq_getElem?_getD, List.getElem?_eq_getElem hlt1,
          List.getElem?_eq_getElem hlt2, hlt1, hlt2, Int.emod_emod_of_dvd])
    have hshape : (pk.parts.map (fun kp =>
          ((core.EncVec.new kp).pack v1).add ((core.EncVec.new kp).pack v2))).map
          (fun c => c.slots.getD pos 0)
        = pk.parts.map (fun kp => (((core.EncVec.new kp).pack v1).add
            ((core.EncVec.new kp).pack v2)).slots.getD pos 0) := by
      simp [List.map_map, Function.comp_def]
    show algebra.apply_crt ((pk.parts.map (fun kp =>
          ((core.EncVec.new kp).pack v1).add ((core.EncVec.new kp).pack v2))).map
          (fun c => c.slots.getD pos 0)) (pk.parts.map (fun kp => kp.ppowr)) = _
    rw [hshape, hcrt]
    simp [Imp.getPrimes, List.getD_eq_getElem?_getD, List.getElem?_eq_getElem hlt1,
      List.getElem?_eq_getElem hlt2, hlt1, hlt2]

/-- Witness for C7 on the key with moduli 2 and 3 and the vectors `[1, 4, 5]` and
`[1, 1, 5]`. -/
theorem C7_add_homomorphism_witness :
    ∃ a1 : EncVec,
      ((EncVec.new pk23).pack [1, 4, 5]).add ((EncVec.new pk23).pack [1, 1, 5]) = some a1 ∧
      (∀ i, i < pk23.partsNum → ∃ c o,
        ((EncVec.new pk23).pack [1, 4, 5]).imp_.crtParts_.get? i = some c ∧
        ((EncVec.new pk23).pack [1, 1, 5]).imp_.crtParts_.get? i = some o ∧
        a1.imp_.crtParts_.get? i = some (c.add o)) ∧
      a1.unpack [] sk23 false = some (true,
        List.zipWith (fun x y => (x + y) % (((Imp.getPrimes pk23).prod : Nat) : Int))
          [1, 4, 5] [1, 1, 5]) :=
  C7_add_homomorphism pk23 sk23 [1, 4, 5] [1, 1, 5] [] (by decide) (by decide) (by decide)
    (by decide) (by decide)

/-! ## Reconstruction failures -/

/-- C5. Residue-count check: `apply_crt` returns `false` and leaves the caller's
`result` as it was whenever the list of residues is empty or longer than the list of
moduli, and `unpack` returns `false` with `result` unchanged whenever the vector has
no channels. -/
theorem C5_residue_count_check (v : EncVec) (result : Vector) (plains : List Vector)
    (sk : SecKey) (negate : Bool) :
    ((plains = [] ∨ v.imp_.primes_.length < plains.length) →
        v.imp_.apply_crt result plains = (false, result)) ∧
    (v.imp_.crtParts_ = [] → v.unpack result sk negate = some (false, result)) := by
  constructor
  · intro h
    unfold Imp.apply_crt
    rcases h with h | h
    · subst h
      rfl
    · have hg : (plains.isEmpty || decide (plains.length > v.imp_.primes_.length)) = true := by
        simp [h]
      rw [hg]
      rfl
  · intro h
    unfold EncVec.unpack Imp.unpack
    rw [h]
    rfl

/-- Witness for C5: no residue, three residues for two moduli, and a vector built
from a key without parts. -/
theorem C5_residue_count_check_witness :
    (EncVec.new pk23).imp_.apply_crt [7] [] = (false, [7]) ∧
    (EncVec.new pk23).imp_.apply_crt [7] [[1], [1], [1]] = (false, [7]) ∧
    (EncVec.new ⟨[]⟩).unpack [7] sk23 true = some (false, [7]) :=
  ⟨(C5_residue_count_check (EncVec.new pk23) [7] [] sk23 true).1 (Or.inl rfl),
   (C5_residue_count_check (EncVec.new pk23) [7] [[1], [1], [1]] sk23 true).1
     (Or.inr (by decide)),
   (C5_residue_count_check (EncVec.new ⟨[]⟩) [7] [] sk23 true).2 rfl⟩

/-- With a non-empty first residue the length check of `apply_crt` is reached: a
residue whose length differs from the first one makes it return `false` and leave
`result` as it was. -/
theorem apply_crt_length_mismatch (e : Imp) (result : Vector) (p0 : Vector)
    (ps : List Vector) (pl : Vector) (h0 : p0 ≠ []) (hpl : pl ∈ p0 :: ps)
    (hne : pl.length ≠ p0.length) :
    e.apply_crt result (p0 :: ps) = (false, result) := by
  unfold Imp.apply_crt
  split
  · rfl
  · have hpos : 0 < p0.length := List.length_pos.mpr h0
    have hinner : (p0 :: ps).mapM (fun plain =>
        if plain.length ≠ ((p0 :: ps).headD []).length then none
        else some (plain.getD 0 0)) = none :=
      mapM_option_eq_none _ (p0 :: ps) pl hpl (by simp [hne])
    have houter := mapM_option_eq_none
      (fun pos => ((p0 :: ps).mapM (fun plain =>
          if plain.length ≠ ((p0 :: ps).headD []).length then none
          else some (plain.getD pos 0))).map
        (fun alphas => algebra.apply_crt alphas e.primes_))
      (List.range ((p0 :: ps).headD []).length) 0 (List.mem_range.mpr hpos)
      (by simp only [hinner, Option.map_none'])
    simp only []
    rw [houter]

/-- C4. Evaluation at the failing input: two moduli, a first residue of length 0
followed by a residue of length 1, and a caller's `result` holding `[7]`. The
position loop is empty, the length check inside it is never reached, and
`apply_crt` returns `true` after overwriting `result` with the empty vector. -/
theorem C4_empty_first_residue_accepted :
    (Imp.new pk23).apply_crt [7] [[], [1]] = (true, []) := by
  decide

/-! ## Defects of the by-value loops, of `unpack` and of `replicate` -/

/-- C2. Evaluation at the failing input: the vector `[1, 4, 5]` packed under the
moduli 2 and 3 and unpacked with `negate = true` comes back as `[1, 4, 5]`, which is
not its negation `[5, 2, 1]` modulo 6. -/
theorem C2_negate_not_forwarded :
    ((EncVec.new pk23).pack [1, 4, 5]).unpack [] sk23 true = some (true, [1, 4, 5]) ∧
    ([1, 4, 5] : Vector) ≠ [1, 4, 5].map (fun x => (-x) % 6) := by
  decide

/-- The body of `unpack` does not depend on its `negate` argument. -/
theorem unpack_negate_irrelevant (v : EncVec) (result : Vector) (sk : SecKey) :
    v.unpack result sk true = v.unpack result sk false := rfl

/-- The vector returned by `replicate` carries the channels pushed by the constructor
in front of the replicated ones. -/
theorem replicate_channel_count (v : EncVec) (i width : Nat) :
    (v.replicate i width).imp_.crtParts_.length
      = v.imp_.pk_.partsNum + v.imp_.crtParts_.length := by
  simp [EncVec.replicate, Imp.replicate, EncVec.new, Imp.new, PubKey.partsNum]

/-- C3. Evaluation at the failing input: `[1, 4, 5]` packed under the moduli 2 and
3, then `replicate(1, 2)`. The returned vector has four channels for two moduli, so
its `unpack` returns `false` and leaves the caller's `result` (here `[9]`) as it was,
instead of producing `[4, 4]`. -/
theorem C3_replicate_then_unpack_fails :
    (((EncVec.new pk23).pack [1, 4, 5]).replicate 1 2).unpack [9] sk23 false
      = some (false, [9]) := by
  decide

/-- C6. Evaluation at the failing input: after `add([1, 1, 1])` the vector packed
from `[1, 4, 5]` is the very same state as before, and it unpacks to `[1, 4, 5]`
rather than to `[2, 5, 0]`. -/
theorem C6_add_constant_leaves_channels :
    ((EncVec.new pk23).pack [1, 4, 5]).add_vec [1, 1, 1] = (EncVec.new pk23).pack [1, 4, 5] ∧
    (((EncVec.new pk23).pack [1, 4, 5]).add_vec [1, 1, 1]).unpack [] sk23 false
      = some (true, [1, 4, 5]) ∧
    (((EncVec.new pk23).pack [1, 4, 5]).imp_.crtParts_.map (fun c => c.add_vec [1, 1, 1]))
      ≠ (((EncVec.new pk23).pack [1, 4, 5]).add_vec [1, 1, 1]).imp_.crtParts_ := by
  decide

/-- C8. Evaluation at the failing input: `[1, 4, 5]` and `[1, 1, 5]` packed under
the moduli 2 and 3, `lowLevelMul`, then `reLinearize()`. Both stored channels are
still outside the linear representation. -/
theorem C8_reLinearize_leaves_channels :
    (((EncVec.new pk23).pack [1, 4, 5]).lowLevelMul ((EncVec.new pk23).pack [1, 1, 5])).map
      (fun a1 => a1.reLinearize.imp_.crtParts_.map (fun c => c.linear))
      = some [false, false] := by
  decide

/-- C10. Evaluation at the failing input: `[1, 4, 5]` packed under the moduli 2 and
3, then `replicate(1, 2)`. The returned vector has four channels for two key parts
and two moduli, their lengths are 0, 0, 2, 2, and `length()` reports 0. -/
theorem C10_replicate_breaks_channel_structure :
    ((((EncVec.new pk23).pack [1, 4, 5]).replicate 1 2).imp_.crtParts_.map
        (fun c => c.length) = [0, 0, 2, 2]) ∧
    (((EncVec.new pk23).pack [1, 4, 5]).replicate 1 2).imp_.pk_.partsNum = 2 ∧
    (((EncVec.new pk23).pack [1, 4, 5]).replicate 1 2).imp_.primes_.length = 2 ∧
    (((EncVec.new pk23).pack [1, 4, 5]).replicate 1 2).length = 0 := by
  decide

/-! ## `mul(other)` against its specification -/

theorem Imp_lowLevelMul_flag (e oth : Imp) (r : Bool × Imp)
    (h : e.lowLevelMul oth = some r) : r.1 = true := by
  unfold Imp.lowLevelMul at h
  cases hm : (List.range e.crtParts_.length).mapM (fun i =>
      match e.crtParts_.get? i, oth.crtParts_.get? i with
      | some c, some o => some (c.lowLevelMul o)
      | _, _ => none) with
  | none => rw [hm] at h; cases h
  | some cs =>
    rw [hm] at h
    cases h
    rfl

/-- C9. `mul(other)` equals `lowLevelMul(other)` followed by `reLinearize()`: the
state of `a` after `a.mul(b)` is the state of a copy of `a` after `lowLevelMul(b)`
and then `reLinearize()`, and for operands with the same number of channels (same
key) the call completes. The operand `b` is only read by both paths. -/
theorem C9_mul_refines_spec (a b : EncVec) :
    a.mul b = a.copy.mul_spec b ∧
    (a.imp_.crtParts_.length = b.imp_.crtParts_.length → ∃ a1, a.mul b = some a1) := by
  have heq : a.mul b = a.copy.mul_spec b := by
    unfold EncVec.mul EncVec.mul_spec EncVec.lowLevelMul EncVec.copy Imp.mul
    cases hl : a.imp_.lowLevelMul b.imp_ with
    | none => rfl
    | some r =>
      have hflag := Imp_lowLevelMul_flag a.imp_ b.imp_ r hl
      obtain ⟨ok, e1⟩ := r
      simp only at hflag
      subst hflag
      rfl
  refine ⟨heq, ?_⟩
  intro hlen
  rw [heq]
  unfold EncVec.mul_spec EncVec.lowLevelMul EncVec.copy
  rw [Imp_lowLevelMul_eq a.imp_ b.imp_ (Nat.le_of_eq hlen)]
  exact ⟨_, rfl⟩

/-- Witness for C9 on two vectors packed under the key with moduli 2 and 3. -/
theorem C9_mul_refines_spec_witness :
    ∃ a1, ((EncVec.new pk23).pack [1, 4, 5]).mul ((EncVec.new pk23).pack [1, 1, 5]) = some a1 :=
  (C9_mul_refines_spec ((EncVec.new pk23).pack [1, 4, 5])
    ((EncVec.new pk23).pack [1, 1, 5])).2 (by decide)
